import Mathlib

/-!
Verification of the django-scrubber management commands against their
natural-language specification.

The development shallowly embeds the code of
src/django_scrubber/management/commands/scrub_data.py (rule resolution,
rule realization, the keep-filter, the bulk update annotation, trimming,
and the paginated bulk-delete routine) as executable Lean definitions, and
proves the spec claims about them.

Python dictionaries are embedded as ordered association lists with the
insert-or-overwrite semantics of dict assignment; Python truthiness is made
explicit; machine details (the ORM, the database, threads) are abstracted
to explicit effect lists and traces.
-/

namespace Scrubber

/-! ## Python value model -/

/-- Embedding of the Python values that occur as scrubber rules and realized
scrub values: None, booleans, integers and strings. -/
inductive PyVal : Type
  | vNone
  | vBool (b : Bool)
  | vInt (n : Int)
  | vStr (s : String)
deriving DecidableEq

/-- Python truthiness for the embedded values: None and False are falsy,
0 is falsy, the empty string is falsy. -/
def pyTruthy : PyVal → Bool
  | .vNone => false
  | .vBool b => b
  | .vInt n => n != 0
  | .vStr s => !s.isEmpty

/-! ## Ordered dictionaries

Python dicts are insertion ordered with unique keys. We embed them as
association lists together with the assignment operation d[k] = v, which
overwrites in place when the key is present and appends otherwise. -/

section Dict

variable {K V : Type} [DecidableEq K]

/-- Lookup in an association list: value of the first entry with the given
key. On lists built by dictInsert keys are unique, so this is dict lookup. -/
def lookupD (d : List (K × V)) (k : K) : Option V :=
  (d.find? (fun p => decide (p.1 = k))).map Prod.snd

/-- Python dict assignment d[k] = v: overwrite the first entry holding the
key, keeping its position; append at the end when the key is absent. -/
def dictInsert (d : List (K × V)) (k : K) (v : V) : List (K × V) :=
  match d with
  | [] => [(k, v)]
  | p :: rest => if p.1 = k then (k, v) :: rest else p :: dictInsert rest k v

/-- A Python loop that assigns into a dict: for a in l, when g a produces a
(key, value) pair, run d[key] = value. Dict comprehensions and dict.update
are instances of this shape. -/
def pyDictExtend {α : Type} (g : α → Option (K × V)) (base : List (K × V))
    (l : List α) : List (K × V) :=
  l.foldl (fun d a => match g a with | some (k, v) => dictInsert d k v | none => d) base

/-- The value written last to a given key by the loop embedded in
pyDictExtend, if any: later elements of the list win. -/
def lastAssign {α : Type} (g : α → Option (K × V)) (k : K) : List α → Option V
  | [] => none
  | a :: rest =>
    match lastAssign g k rest with
    | some v => some v
    | none =>
      match g a with
      | some (k', v) => if k' = k then some v else none
      | none => none

end Dict

/-! ## Data model

Embeddings of the framework objects that scrub_data.py reads: model field
descriptors, scrubbing rules, database rows, model descriptors, and the
settings bag read through settings_with_fallback. -/

/-- A model field descriptor: its name and the name of its Python type
(the key used by type-keyed global scrubbers). -/
structure Field where
  name : String
  ftype : String
deriving DecidableEq

/-- A scrubbing rule value, as found in SCRUBBER_GLOBAL_SCRUBBERS or in a
model Scrubbers class. The constructor keep embeds the Keep sentinel.
Modelled from the spec: Keep lives in the scrubbers module, which is not
under src/; the spec calls it a sentinel rule meaning do not scrub this
field, so it is a distinguished constructor here. The constructor gen is a
callable scrubber invoked with the field; lit is any other literal value. -/
inductive Rule : Type
  | keep
  | lit (v : PyVal)
  | gen (f : Field → PyVal)

/-- Embeds the comparison scrubbing_method != Keep from the keep-filter in
Command.handle: equality with the Keep sentinel. -/
def isKeep : Rule → Bool
  | .keep => true
  | _ => false

/-- A realized scrub value, the result of the expression
(callable(v) and v(k) or v) in call_callables: either a plain value, or the
callable rule object itself (which the Python and-or chain returns when the
invocation result is falsy), or an instance of the Keep class (Python
classes are callable; unreachable from handle, which filters keep first). -/
inductive RVal : Type
  | val (v : PyVal)
  | fnVal (f : Field → PyVal)
  | keepInst

/-- Python truthiness of a realized value: function objects and class
instances are truthy. -/
def rvalTruthy : RVal → Bool
  | .val v => pyTruthy v
  | .fnVal _ => true
  | .keepInst => true

/-- A database row: primary key, whether it has an orders attribute
(hasattr(item, .orders.)), and its datetime-valued attributes as integer
timestamps measured in days. -/
structure Row where
  pk : Nat
  hasOrders : Bool
  attrs : String → Int

/-- The Scrubbers.Meta options bag of a model, as read by get_options:
presence of trim_table, the trim_attribute, an optional exclude filter
(embedded as a row predicate), and the disconnect_signals list as
(type, sender, dispatch_uid) triples. -/
structure OptionsMeta where
  trimTable : Bool
  trimAttribute : String
  exclude : Option (Row → Bool)
  disconnectSignals : List (String × String × String)

/-- The empty options dict, returned by get_options when the model has no
Scrubbers class or the class has no Meta. -/
def emptyOptions : OptionsMeta :=
  { trimTable := false, trimAttribute := "", exclude := none, disconnectSignals := [] }

/-- A scrubber class (a model Scrubbers inner class or a class named by
SCRUBBER_MAPPING): its non-dunder attributes as (name, rule) pairs, in
class-dict order (what get_fields iterates), plus its optional Meta. -/
structure ScrubberClass where
  attrs : List (String × Rule)
  meta : Option OptionsMeta

/-- A model descriptor: app label, model name, the app config name
(model meta app_config.name), the proxy and managed flags, the concrete
fields, the optional Scrubbers attribute, and the table rows
(model.objects.all() in primary-key order). -/
structure Model where
  appLabel : String
  modelName : String
  appName : String
  proxy : Bool
  managed : Bool
  fields : List Field
  scrubbersAttr : Option ScrubberClass
  rows : List Row

/-- The label of a model, app_label.ModelName, as in model meta label. -/
def Model.label (m : Model) : String :=
  m.appLabel ++ "." ++ m.modelName

/-- The SCRUBBER_GLOBAL_SCRUBBERS dict, split by its two kinds of keys:
field names and field types. -/
structure GlobalScrubbers where
  byName : String → Option Rule
  byType : String → Option Rule

/-- The settings read by the command through settings_with_fallback and
django.conf.settings. SCRUBBER_MAPPING maps a model label to the scrubber
class named by the dotted path (importlib resolution is embedded as the
already-resolved class). An empty appsList embeds a falsy
SCRUBBER_APPS_LIST. -/
structure Settings where
  environment : String
  strictMode : Bool
  globalScrubbers : GlobalScrubbers
  scrubberMapping : String → Option ScrubberClass
  appsList : List String
  skipUnmanaged : Bool
  entriesPerProvider : Nat

/-- The externally supplied state handle runs against: the settings, the
model registry (apps.get_models order), the report of the validator
service, and the current time in days. Modelled from the spec: the
ScrubberValidatorService (services/validator.py, not under src/) reports
the text fields lacking an explicit scrub policy; its report is taken here
as an input list. -/
structure World where
  settings : Settings
  registry : List Model
  nonScrubbedFields : List String
  now : Int

/-- The parsed command-line arguments of scrub_data, with argparse defaults
applied. -/
structure CmdKwargs where
  model : Option String
  keepSessions : Bool
  removeFakeData : Bool
  olderThan : Int

/-- The argparse default of the older-than flag (add_arguments). -/
def olderThanDefault : Int := 1095

/-! ## Embedding of scrub_data.py -/

/-- Embeds the Python expression (callable(v) and v(k) or v) realizing one
rule at a field. A callable rule is invoked with the field; when the result
is truthy it is the realized value, otherwise the and-or chain falls back
to the rule object itself. A non-callable rule realizes to itself. The Keep
class is callable, so it would realize to an instance; handle never reaches
this branch because the keep-filter runs first. -/
def realize_rule (k : Field) (v : Rule) : RVal :=
  match v with
  | .keep => .keepInst
  | .lit x => .val x
  | .gen f => if pyTruthy (f k) then .val (f k) else .fnVal f

/-- Embeds call_callables: the dict comprehension keyed by field name that
realizes every rule of the scrubbers dict. -/
def call_callables (d : List (Field × Rule)) : List (String × RVal) :=
  pyDictExtend (fun p => some (p.1.name, realize_rule p.1 p.2)) [] d

/-- Embeds filter_out_disabled: the dict comprehension dropping entries
whose realized value is falsy. -/
def filter_out_disabled (d : List (String × RVal)) : List (String × RVal) :=
  pyDictExtend (fun p => if rvalTruthy p.2 then some p else none) [] d

/-- The realized scrubbers passed to the bulk update in handle:
filter_out_disabled(call_callables(scrubbers)). -/
def realized_scrubbers (d : List (Field × Rule)) : List (String × RVal) :=
  filter_out_disabled (call_callables d)

/-- The body of the first scrubber-collection loop of handle: the entry
assigned for one field, if any. A field-name-keyed global rule wins over a
type-keyed one (the if-elif at the top of the per-model loop); fields in
neither stay unassigned. -/
def global_rule_entry (gs : GlobalScrubbers) (f : Field) : Option (Field × Rule) :=
  match gs.byName f.name with
  | some r => some (f, r)
  | none =>
    match gs.byType f.ftype with
    | some r => some (f, r)
    | none => none

/-- Embeds the first scrubber-collection loop of handle (global scrubbers):
iterate the model fields and assign each its global entry, if any. -/
def build_global_scrubbers (gs : GlobalScrubbers) (fields : List Field) :
    List (Field × Rule) :=
  pyDictExtend (global_rule_entry gs) [] fields

/-- Embeds the scrubber-class choice of get_model_scrubbers: a
SCRUBBER_MAPPING entry for the model label wins, else the model Scrubbers
attribute, else none. -/
def scrubber_class_for (st : Settings) (m : Model) : Option ScrubberClass :=
  match st.scrubberMapping m.label with
  | some cls => some cls
  | none => m.scrubbersAttr

/-- Embeds model meta get_field: look the field up by name among the model
fields; a miss is the FieldDoesNotExist branch (warn and skip). -/
def meta_get_field (m : Model) (k : String) : Option Field :=
  m.fields.find? (fun f => decide (f.name = k))

/-- The body of the field-mapping loop of get_model_scrubbers: skip the
Meta attribute, resolve the attribute name to a model field (a miss is the
FieldDoesNotExist warn-and-skip branch), and key the entry by the field. -/
def model_scrubber_entry (m : Model) (p : String × Rule) : Option (Field × Rule) :=
  if p.1 = "Meta" then none
  else (meta_get_field m p.1).map (fun f => (f, p.2))

/-- Embeds get_model_scrubbers: iterate the scrubber-class attributes and
assign each resolvable one into the scrubbers dict. -/
def get_model_scrubbers (st : Settings) (m : Model) : List (Field × Rule) :=
  match scrubber_class_for st m with
  | none => []
  | some cls => pyDictExtend (model_scrubber_entry m) [] cls.attrs

/-- The effective rule table of handle: the global scrubbers dict updated
with the model-declared scrubbers (dict.update, later source wins). -/
def effective_scrubbers (st : Settings) (m : Model) : List (Field × Rule) :=
  pyDictExtend (fun p => some p)
    (build_global_scrubbers st.globalScrubbers m.fields)
    (get_model_scrubbers st m)

/-- Embeds the keep-filter loop of handle: rebuild the scrubbers dict
keeping only entries whose rule is not the Keep sentinel. -/
def scrubbers_without_kept_fields (d : List (Field × Rule)) : List (Field × Rule) :=
  pyDictExtend (fun p => if isKeep p.2 then none else some p) [] d

/-- Embeds get_options: the Meta options of the model Scrubbers attribute,
or the empty dict when either attribute access fails. -/
def get_options (m : Model) : OptionsMeta :=
  match m.scrubbersAttr with
  | some cls =>
    match cls.meta with
    | some o => o
    | none => emptyOptions
  | none => emptyOptions

/-- Embeds the trim queryset of handle: rows whose trim attribute is
strictly below now minus older_than. Timestamps are in days, so the
datetime.timedelta(days=older_than) subtraction is integer subtraction. -/
def trim_candidates (rows : List Row) (attr : String) (now olderThan : Int) :
    List Row :=
  rows.filter (fun r => decide (r.attrs attr < now - olderThan))

/-- Embeds the bulk-update annotation of handle: each record is annotated
with mod_pk, its primary key modulo SCRUBBER_ENTRIES_PER_PROVIDER. -/
def annotate_mod_pk (p : Nat) (records : List Row) : List (Row × Nat) :=
  records.map (fun r => (r, r.pk % p))

/-- The assignment groups induced by the mod_pk annotation: for each residue
below the pool size, the annotated records assigned to it. This formalizes
the row-hash partitioning of the bulk update over the source annotation. -/
def mod_pk_groups (p : Nat) (records : List Row) : List (List (Row × Nat)) :=
  (List.range p).map (fun g => (annotate_mod_pk p records).filter (fun pr => decide (pr.2 = g)))

/-- Helper for the Python expression s.rsplit(Chr.dot, 1) on a character
list: split at the last dot, if any. -/
def rsplit_dot_aux : List Char → Option (List Char × List Char)
  | [] => none
  | c :: cs =>
    match rsplit_dot_aux cs with
    | some (b, a) => some (c :: b, a)
    | none => if c = '.' then some ([], cs) else none

/-- Embeds s.rsplit with a dot separator and maxsplit 1: a two-element list
around the last dot when the string contains one, else the one-element list
holding the whole string. -/
def py_rsplit_dot1 (s : String) : List String :=
  match rsplit_dot_aux s.data with
  | some (b, a) => [String.mk b, String.mk a]
  | none => [s]

/-- How a run of the command ends: the two early stderr-and-return-False
gates, a raised CommandError, an exception that escapes uncaught, or normal
completion. -/
inductive ExitStatus : Type
  | envGateFail
  | strictModeFail
  | commandError (msg : String)
  | uncaught (msg : String)
  | completed
deriving DecidableEq

/-- Result of the model-selection block of handle. -/
inductive ResolveOutcome : Type
  | found (ms : List Model)
  | err (st : ExitStatus)

/-- Embeds apps.get_model: look a model up in the registry by app label and
model name; a miss is the LookupError branch. -/
def apps_get_model (registry : List Model) (appLabel modelName : String) :
    Option Model :=
  registry.find? (fun m =>
    decide (m.appLabel = appLabel) && decide (m.modelName = modelName))

/-- Embeds the model-selection block of handle. With a --model value the
code runs value.rsplit and unpacks the result into two names: a value with
no dot yields a one-element list, so the unpacking itself raises an
uncaught ValueError, before the try block around apps.get_model. A failed
registry lookup raises LookupError, caught and re-raised as CommandError.
Without --model, all registered models are selected. -/
def resolve_models (registry : List Model) : Option String → ResolveOutcome
  | none => .found registry
  | some s =>
    match py_rsplit_dot1 s with
    | [appLabel, modelName] =>
      match apps_get_model registry appLabel modelName with
      | some m => .found [m]
      | none =>
        .err (.commandError "--model should be defined as <app_label>.<model_name>")
    | _ => .err (.uncaught "ValueError")

/-- An observable action of handle against the database or the signal
registry, in program order. -/
inductive Effect : Type
  | sigDisconnect (ty sender uid : String)
  | trim (label : String) (candidates : List Row)
  | update (label : String) (annotated : List (Row × Nat))
      (realized : List (String × RVal))
  | truncateSessions
  | truncateFakeData

/-- Embeds one iteration of the per-model loop of handle: the proxy,
unmanaged and apps-list continue-filters, the rule table build, the
keep-filter, the empty-table skip, realization, signal disconnection, the
optional trim, the exclude filter and the annotated bulk update. -/
def scrub_model_effects (st : Settings) (now olderThan : Int) (m : Model) :
    List Effect :=
  if m.proxy then []
  else if st.skipUnmanaged && !m.managed then []
  else if !st.appsList.isEmpty && !(st.appsList.contains m.appName) then []
  else
    let scrubbers := scrubbers_without_kept_fields (effective_scrubbers st m)
    if scrubbers.isEmpty then []
    else
      let realized := realized_scrubbers scrubbers
      let opts := get_options m
      let sigEffs := opts.disconnectSignals.map
        (fun sd => Effect.sigDisconnect sd.1 sd.2.1 sd.2.2)
      let trimEffs :=
        if opts.trimTable then
          [Effect.trim m.label (trim_candidates m.rows opts.trimAttribute now olderThan)]
        else []
      let records := m.rows
      let records :=
        match opts.exclude with
        | some pred => records.filter (fun r => !pred r)
        | none => records
      sigEffs ++ trimEffs ++
        [Effect.update m.label (annotate_mod_pk st.entriesPerProvider records) realized]

/-- The full observable result of one handle invocation: the effects issued
and how the run ended. Early gates and raised errors issue no effects. -/
structure HandleOutcome where
  effects : List Effect
  exit : ExitStatus

/-- Embeds Command.handle of scrub_data.py: the environment gate (stderr
write and return False unless ENVIRONMENT is STAGING, DEVELOP or NONPROD),
the strict-mode gate (stderr write and return False when the validator
reports any unscrubbed text field), model selection, the per-model scrub
loop, and the trailing session and fake-data truncations. -/
def handle (w : World) (kw : CmdKwargs) : HandleOutcome :=
  if !(["STAGING", "DEVELOP", "NONPROD"].contains w.settings.environment) then
    { effects := [], exit := .envGateFail }
  else if w.settings.strictMode && decide (0 < w.nonScrubbedFields.length) then
    { effects := [], exit := .strictModeFail }
  else
    match resolve_models w.registry kw.model with
    | .err st => { effects := [], exit := st }
    | .found models =>
      let perModel :=
        (models.map (scrub_model_effects w.settings w.now kw.olderThan)).flatten
      let sess := if !kw.keepSessions then [Effect.truncateSessions] else []
      let fake := if kw.removeFakeData then [Effect.truncateFakeData] else []
      { effects := perModel ++ sess ++ fake, exit := .completed }

/-! ## Embedding of the bulk trim routine (large_delete, force_delete) -/

/-- Embeds django.core.paginator.Paginator page contents: the list split
into consecutive pages of at most per elements. -/
def paginate {α : Type} (per : Nat) : List α → List (List α)
  | [] => []
  | x :: xs => ((x :: xs).take per) :: paginate per (xs.drop (per - 1))
termination_by l => l.length
decreasing_by
  simp only [List.length_drop, List.length_cons]
  omega

/-- One database action of the large_delete routine, in submission order:
deleting the orders dependents of a row, deleting a row, or the final
whole-queryset sweep delete. -/
inductive TrimOp : Type
  | delOrders (pk : Nat)
  | delRow (pk : Nat)
  | sweep
deriving DecidableEq

/-- Embeds large_delete as its trace of submitted deletions: a first pass
over every page deleting the orders dependents of each row that has them, a
second pass over every page deleting the rows themselves, and one final
sweep delete of the whole queryset. Thread-pool concurrency is abstracted
to submission order; concurrent.futures.wait at the end of each page is the
barrier making the pass structure real. -/
def large_delete (queryset : List Row) : List TrimOp :=
  let pages := paginate 250 queryset
  ((pages.map (fun page =>
      page.filterMap (fun r =>
        if r.hasOrders then some (TrimOp.delOrders r.pk) else none))).flatten)
  ++ ((pages.map (fun page => page.map (fun r => TrimOp.delRow r.pk))).flatten)
  ++ [TrimOp.sweep]

/-- Outcome of one delete call on a queryset: success, ProtectedError, or
some other exception. -/
inductive DRes : Type
  | ok
  | protectedError
  | exc (msg : String)
deriving DecidableEq

/-- A deletable queryset for force_delete. Modelled from the spec: the
delete semantics live in the ORM outside src/, and per the spec the
allow_hard_delete annotation permits hard deletion, so the outcome of the
i-th delete call may depend on whether the annotation is attached. The
field del gives that oracle; allowHardDelete is the annotation state. -/
structure DelQuerySet where
  allowHardDelete : Bool
  del : Bool → Nat → DRes

/-- Embeds objs.annotate(allow_hard_delete=Value(True, ...)): a NEW
queryset with the annotation attached. Django querysets are immutable;
annotate returns a fresh queryset and leaves the receiver unchanged. -/
def annotate_allow_hard_delete (q : DelQuerySet) : DelQuerySet :=
  { q with allowHardDelete := true }

/-- How force_delete ends: the row set deleted, a warning logged (retry
failed, exception caught) while the routine continues, or an exception
propagating out of the first delete (only ProtectedError is caught there). -/
inductive FDOutcome : Type
  | deleted
  | warned (msg : String)
  | raised (msg : String)
deriving DecidableEq

/-- The observable behaviour of one force_delete call: how many delete
calls were issued, whether the annotate call was evaluated, and the
outcome. -/
structure FDTrace where
  deleteCalls : Nat
  annotateCalled : Bool
  outcome : FDOutcome
deriving DecidableEq

/-- Embeds force_delete of large_delete. The first delete is attempted; on
ProtectedError the code evaluates objs.annotate(allow_hard_delete=True) but
DISCARDS the returned queryset (the source does not rebind objs), so the
retry calls delete on the original, un-annotated queryset; any exception of
the retry is caught and logged as a warning. A non-ProtectedError exception
of the first delete propagates. -/
def force_delete (objs : DelQuerySet) : FDTrace :=
  match objs.del objs.allowHardDelete 0 with
  | .ok => { deleteCalls := 1, annotateCalled := false, outcome := .deleted }
  | .protectedError =>
    let _discarded := annotate_allow_hard_delete objs
    match objs.del objs.allowHardDelete 1 with
    | .ok => { deleteCalls := 2, annotateCalled := true, outcome := .deleted }
    | .protectedError =>
      { deleteCalls := 2, annotateCalled := true, outcome := .warned "ProtectedError" }
    | .exc m => { deleteCalls := 2, annotateCalled := true, outcome := .warned m }
  | .exc m => { deleteCalls := 1, annotateCalled := false, outcome := .raised m }

/-! ## Concrete instances used by per-claim counterexamples and witnesses -/

def fC1 : Field := { name := "email", ftype := "CharField" }

def mC1 : Model :=
  { appLabel := "app", modelName := "Person", appName := "app", proxy := false,
    managed := true, fields := [fC1],
    scrubbersAttr := some { attrs := [("email", Rule.keep)], meta := none },
    rows := [] }

def stC1 : Settings :=
  { environment := "STAGING", strictMode := false,
    globalScrubbers :=
      { byName := fun n => if n = "email" then some (Rule.lit (PyVal.vStr "global")) else none
        byType := fun _ => none },
    scrubberMapping := fun _ => none, appsList := [], skipUnmanaged := true,
    entriesPerProvider := 100 }

def fC2 : Field := { name := "email", ftype := "CharField" }

def dC2 : List (Field × Rule) := [(fC2, Rule.gen (fun _ => PyVal.vNone))]

def dC2w : List (Field × Rule) := [(fC2, Rule.lit (PyVal.vStr "x@example.com"))]

def fC3 : Field := { name := "email", ftype := "CharField" }

def mC3 : Model :=
  { appLabel := "app", modelName := "Person", appName := "app", proxy := false,
    managed := true, fields := [fC3],
    scrubbersAttr := some { attrs := [("email", Rule.lit (PyVal.vStr "model"))], meta := none },
    rows := [] }

def stC3 : Settings :=
  { environment := "STAGING", strictMode := false,
    globalScrubbers :=
      { byName := fun n => if n = "email" then some (Rule.lit (PyVal.vStr "byname")) else none
        byType := fun t => if t = "CharField" then some (Rule.lit (PyVal.vStr "bytype")) else none },
    scrubberMapping := fun _ => none, appsList := [], skipUnmanaged := true,
    entriesPerProvider := 100 }

def rowsC4 : List Row :=
  [{ pk := 0, hasOrders := false, attrs := fun _ => 0 },
   { pk := 1, hasOrders := false, attrs := fun _ => 0 },
   { pk := 5, hasOrders := false, attrs := fun _ => 0 }]

def qsC5 : DelQuerySet :=
  { allowHardDelete := false
    del := fun flag _ => if flag then DRes.ok else DRes.protectedError }

def stC7 : Settings :=
  { environment := "PRODUCTION", strictMode := false,
    globalScrubbers := { byName := fun _ => none, byType := fun _ => none },
    scrubberMapping := fun _ => none, appsList := [], skipUnmanaged := true,
    entriesPerProvider := 100 }

def wC7a : World :=
  { settings := stC7, registry := [], nonScrubbedFields := [], now := 0 }

def wC7b : World :=
  { settings := { stC7 with environment := "STAGING", strictMode := true },
    registry := [], nonScrubbedFields := ["app.Person.email"], now := 0 }

def kwC7 : CmdKwargs :=
  { model := none, keepSessions := false, removeFakeData := false,
    olderThan := olderThanDefault }

def wC8 : World :=
  { settings := { stC7 with environment := "STAGING" }, registry := [],
    nonScrubbedFields := [], now := 0 }

def kwC8a : CmdKwargs :=
  { model := some "auth", keepSessions := true, removeFakeData := false, olderThan := 1095 }

def kwC8b : CmdKwargs :=
  { model := some "auth.Missing", keepSessions := true, removeFakeData := false,
    olderThan := 1095 }

def mC10 : Model :=
  { appLabel := "app", modelName := "Ghost", appName := "app", proxy := true,
    managed := true, fields := [], scrubbersAttr := none, rows := [] }

def wC10 : World :=
  { settings := { stC7 with environment := "STAGING" }, registry := [mC10],
    nonScrubbedFields := [], now := 0 }

def kwC10 : CmdKwargs :=
  { model := some "app.Ghost", keepSessions := false, removeFakeData := true,
    olderThan := 1095 }

section DictLemmas

variable {K V : Type} [DecidableEq K]

theorem lookupD_nil (k : K) : lookupD ([] : List (K × V)) k = none := rfl

theorem lookupD_cons (p : K × V) (rest : List (K × V)) (k : K) :
    lookupD (p :: rest) k = if p.1 = k then some p.2 else lookupD rest k := by
  by_cases h : p.1 = k <;> simp [lookupD, List.find?_cons, h]

theorem lookupD_dictInsert_self (d : List (K × V)) (k : K) (v : V) :
    lookupD (dictInsert d k v) k = some v := by
  induction d with
  | nil => simp [dictInsert, lookupD_cons]
  | cons p rest ih =>
    by_cases h : p.1 = k
    · simp [dictInsert, h, lookupD_cons]
    · simp [dictInsert, h, lookupD_cons, ih]

theorem lookupD_dictInsert_ne (d : List (K × V)) (k k' : K) (v : V) (h : k' ≠ k) :
    lookupD (dictInsert d k v) k' = lookupD d k' := by
  have h1 : ¬ (k = k') := fun hc => h hc.symm
  induction d with
  | nil => simp [dictInsert, lookupD_cons, lookupD_nil, h1]
  | cons p rest ih =>
    by_cases hp : p.1 = k
    · have h2 : ¬ (p.1 = k') := fun hc => h1 (hp.symm.trans hc)
      simp [dictInsert, hp, lookupD_cons, h1, h2]
    · simp [dictInsert, hp, lookupD_cons, ih]

theorem keys_dictInsert_sub (d : List (K × V)) (k k' : K) (v : V)
    (h : k' ∈ (dictInsert d k v).map Prod.fst) :
    k' ∈ d.map Prod.fst ∨ k' = k := by
  induction d with
  | nil => simpa [dictInsert] using h
  | cons p rest ih =>
    by_cases hp : p.1 = k
    · simp only [dictInsert, hp, if_true, List.map_cons, List.mem_cons] at h
      rcases h with h | h
      · exact Or.inr h
      · exact Or.inl (by simp [h])
    · simp only [dictInsert, hp, if_false, List.map_cons, List.mem_cons] at h
      rcases h with h | h
      · exact Or.inl (by simp [h])
      · rcases ih h with h' | h'
        · exact Or.inl (by simp [h'])
        · exact Or.inr h'

theorem nodup_keys_dictInsert (d : List (K × V)) (k : K) (v : V)
    (h : (d.map Prod.fst).Nodup) : ((dictInsert d k v).map Prod.fst).Nodup := by
  induction d with
  | nil => simp [dictInsert]
  | cons p rest ih =>
    simp only [List.map_cons, List.nodup_cons] at h
    by_cases hp : p.1 = k
    · simp only [dictInsert, hp, if_true, List.map_cons, List.nodup_cons]
      exact ⟨hp ▸ h.1, h.2⟩
    · simp only [dictInsert, hp, if_false, List.map_cons, List.nodup_cons]
      refine ⟨fun hc => ?_, ih h.2⟩
      rcases keys_dictInsert_sub rest k p.1 v hc with h' | h'
      · exact h.1 h'
      · exact hp h'

theorem mem_of_lookupD_some {d : List (K × V)} {k : K} {v : V}
    (h : lookupD d k = some v) : (k, v) ∈ d := by
  unfold lookupD at h
  cases hf : d.find? (fun p => decide (p.1 = k)) with
  | none => rw [hf] at h; simp at h
  | some p =>
    rw [hf] at h
    have hv : p.2 = v := Option.some.inj h
    have hm : p ∈ d := List.mem_of_find?_eq_some hf
    have hp := List.find?_some hf
    have hk : p.1 = k := of_decide_eq_true hp
    have hpe : p = (k, v) := by
      cases p with
      | mk a b => cases hv; cases hk; rfl
    exact hpe ▸ hm

theorem lookupD_of_mem_nodup {d : List (K × V)} {k : K} {v : V}
    (hmem : (k, v) ∈ d) (hn : (d.map Prod.fst).Nodup) : lookupD d k = some v := by
  induction d with
  | nil => cases hmem
  | cons p rest ih =>
    simp only [List.map_cons, List.nodup_cons] at hn
    rcases List.mem_cons.mp hmem with h | h
    · cases h; simp [lookupD_cons]
    · have hk : ¬ (p.1 = k) := by
        intro hc
        exact hn.1 (hc ▸ (List.mem_map_of_mem Prod.fst h : (k, v).1 ∈ rest.map Prod.fst))
      simp [lookupD_cons, hk, ih h hn.2]

theorem pyDictExtend_nil {α : Type} (g : α → Option (K × V)) (base : List (K × V)) :
    pyDictExtend g base [] = base := rfl

theorem pyDictExtend_cons {α : Type} (g : α → Option (K × V)) (base : List (K × V))
    (a : α) (l : List α) :
    pyDictExtend g base (a :: l) =
      pyDictExtend g (match g a with | some (k, v) => dictInsert base k v | none => base) l := rfl

theorem lookupD_pyDictExtend {α : Type} (g : α → Option (K × V)) (l : List α)
    (base : List (K × V)) (k : K) :
    lookupD (pyDictExtend g base l) k =
      match lastAssign g k l with
      | some v => some v
      | none => lookupD base k := by
  induction l generalizing base with
  | nil => rfl
  | cons a rest ih =>
    rw [pyDictExtend_cons, ih]
    cases hr : lastAssign g k rest with
    | some v => simp [lastAssign, hr]
    | none =>
      cases hg : g a with
      | none => simp [lastAssign, hr, hg]
      | some p =>
        cases p with
        | mk k' v =>
          by_cases hk : k' = k
          · cases hk; simp [lastAssign, hr, hg, lookupD_dictInsert_self]
          · simp [lastAssign, hr, hg, hk, lookupD_dictInsert_ne base k' k v (fun hc => hk hc.symm)]

theorem keys_pyDictExtend_sub {α : Type} (g : α → Option (K × V)) (l : List α)
    (base : List (K × V)) (k : K)
    (h : k ∈ (pyDictExtend g base l).map Prod.fst) :
    k ∈ base.map Prod.fst ∨ ∃ a ∈ l, ∃ v, g a = some (k, v) := by
  induction l generalizing base with
  | nil => exact Or.inl (by simpa [pyDictExtend_nil] using h)
  | cons a rest ih =>
    rw [pyDictExtend_cons] at h
    cases hg : g a with
    | none =>
      rw [hg] at h
      rcases ih base h with h' | ⟨a', ha', v, hv⟩
      · exact Or.inl h'
      · exact Or.inr ⟨a', List.mem_cons_of_mem a ha', v, hv⟩
    | some p =>
      cases p with
      | mk k' v' =>
        rw [hg] at h
        rcases ih (dictInsert base k' v') h with h' | ⟨a', ha', v, hv⟩
        · rcases keys_dictInsert_sub base k' k v' h' with h'' | h''
          · exact Or.inl h''
          · exact Or.inr ⟨a, List.mem_cons_self a rest, v', h'' ▸ hg⟩
        · exact Or.inr ⟨a', List.mem_cons_of_mem a ha', v, hv⟩

theorem nodup_keys_pyDictExtend {α : Type} (g : α → Option (K × V)) (l : List α)
    (base : List (K × V)) (h : (base.map Prod.fst).Nodup) :
    ((pyDictExtend g base l).map Prod.fst).Nodup := by
  induction l generalizing base with
  | nil => simpa [pyDictExtend_nil] using h
  | cons a rest ih =>
    rw [pyDictExtend_cons]
    cases hg : g a with
    | none => exact ih base h
    | some p =>
      cases p with
      | mk k' v' => exact ih _ (nodup_keys_dictInsert base k' v' h)

/-- When no element of the list assigns to the key, the loop leaves the key
unassigned. -/
theorem lastAssign_eq_none {α : Type} (g : α → Option (K × V)) (k : K) (l : List α)
    (h : ∀ a ∈ l, ∀ v, g a ≠ some (k, v)) : lastAssign g k l = none := by
  induction l with
  | nil => rfl
  | cons a rest ih =>
    have hrest : lastAssign g k rest = none :=
      ih (fun a' ha' => h a' (List.mem_cons_of_mem a ha'))
    cases hg : g a with
    | none => simp [lastAssign, hrest, hg]
    | some p =>
      cases p with
      | mk k' v =>
        have hk : ¬ (k' = k) := fun hc => h a (List.mem_cons_self a rest) v (hc ▸ hg)
        simp [lastAssign, hrest, hg, hk]

/-- When each element of the list assigns (if at all) to a key determined by
an injective-on-the-list key function, the loop result at the key of a member
is exactly the assignment of that member. -/
theorem lastAssign_keyfun {α : Type} (g : α → Option (K × V)) (keyf : α → K)
    (hg : ∀ a p, g a = some p → p.1 = keyf a) (l : List α) (a0 : α)
    (hl : (l.map keyf).Nodup) (ha0 : a0 ∈ l) :
    lastAssign g (keyf a0) l = (g a0).map Prod.snd := by
  induction l with
  | nil => cases ha0
  | cons a rest ih =>
    simp only [List.map_cons, List.nodup_cons] at hl
    rcases List.mem_cons.mp ha0 with h | h
    · cases h
      have hrest : lastAssign g (keyf a0) rest = none := by
        apply lastAssign_eq_none
        intro a' ha' v hv
        have hkey : keyf a0 = keyf a' := hg a' (keyf a0, v) hv
        apply hl.1
        rw [hkey]
        exact List.mem_map_of_mem keyf ha'
      cases hga : g a0 with
      | none => simp [lastAssign, hrest, hga]
      | some p =>
        cases p with
        | mk k' v =>
          have hk : k' = keyf a0 := hg a0 (k', v) hga
          simp [lastAssign, hrest, hga, hk]
    · have hne : keyf a ≠ keyf a0 := fun hc => hl.1 (hc ▸ List.mem_map_of_mem keyf h)
      have hrest := ih hl.2 h
      cases hga0 : g a0 with
      | some q =>
        rw [hga0] at hrest
        simp [lastAssign, hrest]
      | none =>
        rw [hga0] at hrest
        cases hga : g a with
        | none => simp [lastAssign, hrest, hga]
        | some p =>
          cases p with
          | mk k' v =>
            have hk : k' = keyf a := hg a (k', v) hga
            have hne' : ¬ (k' = keyf a0) := fun hc => hne (hk.symm.trans hc)
            simp [lastAssign, hrest, hga, hne']

/-- Updating with an association list whose keys are unique assigns each key
its (unique) value from the list. -/
theorem lastAssign_id_of_nodup (ms : List (K × V)) (k : K)
    (hn : (ms.map Prod.fst).Nodup) :
    lastAssign (fun p => some p) k ms = lookupD ms k := by
  induction ms with
  | nil => rfl
  | cons p rest ih =>
    simp only [List.map_cons, List.nodup_cons] at hn
    by_cases hk : p.1 = k
    · have hrest : lastAssign (fun p => some p) k rest = none := by
        apply lastAssign_eq_none
        intro a ha v hv
        simp only [Option.some.injEq] at hv
        subst hv
        apply hn.1
        rw [hk]
        exact List.mem_map_of_mem Prod.fst ha
      cases p with
      | mk a b =>
        cases hk
        simp [lastAssign, hrest, lookupD_cons]
    · rw [lookupD_cons, if_neg hk, ← ih hn.2]
      cases hr : lastAssign (fun p => some p) k rest with
      | some v => simp [lastAssign, hr]
      | none => cases p with | mk a b => simp [lastAssign, hr, hk]

end DictLemmas

/-! ## Bridge lemmas about the dict-building loops -/

theorem mem_dictInsert_sub {K V : Type} [DecidableEq K] (d : List (K × V)) (k : K)
    (v : V) (e : K × V) (h : e ∈ dictInsert d k v) : e ∈ d ∨ e = (k, v) := by
  induction d with
  | nil => simpa [dictInsert] using h
  | cons p rest ih =>
    by_cases hp : p.1 = k
    · simp only [dictInsert, hp, if_true, List.mem_cons] at h
      rcases h with h | h
      · exact Or.inr h
      · exact Or.inl (List.mem_cons_of_mem p h)
    · simp only [dictInsert, hp, if_false, List.mem_cons] at h
      rcases h with h | h
      · exact Or.inl (h ▸ List.mem_cons_self p rest)
      · rcases ih h with h' | h'
        · exact Or.inl (List.mem_cons_of_mem p h')
        · exact Or.inr h'

theorem mem_pyDictExtend_sub {K V α : Type} [DecidableEq K] (g : α → Option (K × V))
    (l : List α) (base : List (K × V)) (e : K × V) (h : e ∈ pyDictExtend g base l) :
    e ∈ base ∨ ∃ a ∈ l, g a = some e := by
  induction l generalizing base with
  | nil => exact Or.inl (by simpa [pyDictExtend_nil] using h)
  | cons a rest ih =>
    rw [pyDictExtend_cons] at h
    cases hg : g a with
    | none =>
      rw [hg] at h
      rcases ih base h with h' | ⟨a', ha', hv⟩
      · exact Or.inl h'
      · exact Or.inr ⟨a', List.mem_cons_of_mem a ha', hv⟩
    | some p =>
      cases p with
      | mk k' v' =>
        rw [hg] at h
        rcases ih (dictInsert base k' v') h with h' | ⟨a', ha', hv⟩
        · rcases mem_dictInsert_sub base k' v' e h' with h'' | h''
          · exact Or.inl h''
          · exact Or.inr ⟨a, List.mem_cons_self a rest, h'' ▸ hg⟩
        · exact Or.inr ⟨a', List.mem_cons_of_mem a ha', hv⟩

theorem nodup_keys_extend_nil {K V α : Type} [DecidableEq K] (g : α → Option (K × V))
    (l : List α) : ((pyDictExtend g ([] : List (K × V)) l).map Prod.fst).Nodup :=
  nodup_keys_pyDictExtend g l [] (by simp)

theorem global_rule_entry_key (gs : GlobalScrubbers) (f : Field) (p : Field × Rule)
    (h : global_rule_entry gs f = some p) : p.1 = f := by
  unfold global_rule_entry at h
  cases hb : gs.byName f.name with
  | some r => rw [hb] at h; cases Option.some.inj h; rfl
  | none =>
    rw [hb] at h
    cases ht : gs.byType f.ftype with
    | some r => rw [ht] at h; cases Option.some.inj h; rfl
    | none => rw [ht] at h; cases h

theorem model_scrubber_entry_mem_fields (m : Model) (a : String × Rule)
    (e : Field × Rule) (h : model_scrubber_entry m a = some e) : e.1 ∈ m.fields := by
  unfold model_scrubber_entry at h
  by_cases hm : a.1 = "Meta"
  · rw [if_pos hm] at h; cases h
  · rw [if_neg hm] at h
    cases hg : meta_get_field m a.1 with
    | none => rw [hg] at h; cases h
    | some fld =>
      rw [hg] at h
      cases Option.some.inj h
      exact List.mem_of_find?_eq_some hg

theorem mem_fields_of_mem_model_scrubbers (st : Settings) (m : Model) (e : Field × Rule)
    (h : e ∈ get_model_scrubbers st m) : e.1 ∈ m.fields := by
  unfold get_model_scrubbers at h
  cases hc : scrubber_class_for st m with
  | none => rw [hc] at h; cases h
  | some cls =>
    rw [hc] at h
    rcases mem_pyDictExtend_sub _ _ _ _ h with hnil | ⟨a, ha, hv⟩
    · cases hnil
    · exact model_scrubber_entry_mem_fields m a e hv

theorem mem_fields_of_mem_effective (st : Settings) (m : Model) (e : Field × Rule)
    (h : e ∈ effective_scrubbers st m) : e.1 ∈ m.fields := by
  unfold effective_scrubbers at h
  rcases mem_pyDictExtend_sub _ _ _ _ h with hb | ⟨a, ha, hv⟩
  · unfold build_global_scrubbers at hb
    rcases mem_pyDictExtend_sub _ _ _ _ hb with hnil | ⟨f', hf', hv'⟩
    · cases hnil
    · have hk := global_rule_entry_key st.globalScrubbers f' e hv'
      rw [hk]; exact hf'
  · have hae : a = e := Option.some.inj hv
    rw [← hae]
    exact mem_fields_of_mem_model_scrubbers st m a ha

theorem nodup_keys_get_model_scrubbers (st : Settings) (m : Model) :
    ((get_model_scrubbers st m).map Prod.fst).Nodup := by
  unfold get_model_scrubbers
  cases scrubber_class_for st m with
  | none => simp
  | some cls => exact nodup_keys_extend_nil _ _

theorem nodup_keys_effective (st : Settings) (m : Model) :
    ((effective_scrubbers st m).map Prod.fst).Nodup := by
  unfold effective_scrubbers
  apply nodup_keys_pyDictExtend
  unfold build_global_scrubbers
  exact nodup_keys_extend_nil _ _

theorem lookupD_build_global (gs : GlobalScrubbers) (fields : List Field) (f : Field)
    (hf : f ∈ fields) (hn : (fields.map Field.name).Nodup) :
    lookupD (build_global_scrubbers gs fields) f = (global_rule_entry gs f).map Prod.snd := by
  have hfn : fields.Nodup := List.Nodup.of_map Field.name hn
  have hid : (fields.map (fun x : Field => x)).Nodup := by
    simpa using hfn
  have hla := lastAssign_keyfun (global_rule_entry gs) (fun x : Field => x)
    (fun a p h => global_rule_entry_key gs a p h) fields f hid hf
  unfold build_global_scrubbers
  rw [lookupD_pyDictExtend]
  rw [show lastAssign (global_rule_entry gs) f fields
      = (global_rule_entry gs f).map Prod.snd from hla]
  cases ho : (global_rule_entry gs f).map Prod.snd <;> simp [ho, lookupD_nil]

theorem lookupD_effective (st : Settings) (m : Model) (f : Field) :
    lookupD (effective_scrubbers st m) f =
      match lookupD (get_model_scrubbers st m) f with
      | some r => some r
      | none => lookupD (build_global_scrubbers st.globalScrubbers m.fields) f := by
  unfold effective_scrubbers
  rw [lookupD_pyDictExtend,
    lastAssign_id_of_nodup (get_model_scrubbers st m) f (nodup_keys_get_model_scrubbers st m)]
  cases lookupD (get_model_scrubbers st m) f <;> rfl

theorem lookupD_call_callables (d : List (Field × Rule)) (f : Field) (r : Rule)
    (hmem : (f, r) ∈ d) (hn : (d.map (fun p => p.1.name)).Nodup) :
    lookupD (call_callables d) f.name = some (realize_rule f r) := by
  have hg : ∀ (a : Field × Rule) (p : String × RVal),
      (fun p : Field × Rule => some (p.1.name, realize_rule p.1 p.2)) a = some p →
        p.1 = a.1.name := by
    intro a p h
    cases Option.some.inj h
    rfl
  have hla := lastAssign_keyfun (fun p : Field × Rule => some (p.1.name, realize_rule p.1 p.2))
    (fun p => p.1.name) hg d (f, r) hn hmem
  unfold call_callables
  rw [lookupD_pyDictExtend]
  rw [show lastAssign (fun p : Field × Rule => some (p.1.name, realize_rule p.1 p.2)) f.name d
      = some (realize_rule f r) from hla]

theorem lookupD_filter_out_disabled (X : List (String × RVal)) (k : String) (v : RVal)
    (hmem : (k, v) ∈ X) (hn : (X.map Prod.fst).Nodup) :
    lookupD (filter_out_disabled X) k = if rvalTruthy v then some v else none := by
  have hg : ∀ (a : String × RVal) (p : String × RVal),
      (fun p : String × RVal => if rvalTruthy p.2 then some p else none) a = some p →
        p.1 = a.1 := by
    intro a p h
    cases ht : rvalTruthy a.2 with
    | false => simp [ht] at h
    | true =>
      simp only [ht, if_true] at h
      cases Option.some.inj h
      rfl
  have hla := lastAssign_keyfun
    (fun p : String × RVal => if rvalTruthy p.2 then some p else none)
    Prod.fst hg X (k, v) hn hmem
  unfold filter_out_disabled
  rw [lookupD_pyDictExtend]
  rw [show lastAssign (fun p : String × RVal => if rvalTruthy p.2 then some p else none) k X
      = (if rvalTruthy v then some ((k, v) : String × RVal) else none).map Prod.snd from hla]
  cases ht : rvalTruthy v <;> simp [ht, lookupD_nil]

/-! ## Claim theorems -/

/-- C9: for every model with a trim option and every cutoff of C days
(default 1095), the trim candidate set contains exactly the rows whose trim
attribute is strictly older than now minus C days; rows outside that window
are not selected. -/
theorem trim_window_selection (rows : List Row) (attr : String) (now c : Int) :
    (∀ r, r ∈ trim_candidates rows attr now c ↔ r ∈ rows ∧ r.attrs attr < now - c)
    ∧ olderThanDefault = 1095 := by
  refine ⟨fun r => ?_, rfl⟩
  simp [trim_candidates, List.mem_filter]

/-- C4: for every configured pool size P greater than zero and every row
set, the bulk update annotates each row with primary_key mod P, every
annotation lands below P, the assignment groups number exactly P, and each
row falls in exactly one residue group. -/
theorem mod_pk_partition (p : Nat) (records : List Row) (hp : 0 < p) :
    (mod_pk_groups p records).length = p
    ∧ (∀ pr ∈ annotate_mod_pk p records, pr.2 = pr.1.pk % p ∧ pr.2 < p)
    ∧ (∀ r ∈ records, (List.range p).count (r.pk % p) = 1)
    ∧ ∀ g ∈ List.range p, ∀ pr,
        (pr ∈ (annotate_mod_pk p records).filter (fun pr => decide (pr.2 = g)) ↔
          pr ∈ annotate_mod_pk p records ∧ pr.2 = g) := by
  refine ⟨by simp [mod_pk_groups], ?_, ?_, ?_⟩
  · intro pr hpr
    rcases List.mem_map.mp hpr with ⟨r, _, he⟩
    cases he
    exact ⟨rfl, Nat.mod_lt _ hp⟩
  · intro r _
    exact List.count_eq_one_of_mem (List.nodup_range p) (List.mem_range.mpr (Nat.mod_lt _ hp))
  · intro g _ pr
    simp [List.mem_filter]

/-- Witness for C4 at pool size 3 and three concrete rows. -/
theorem mod_pk_partition_witness :
    0 < 3
    ∧ ((mod_pk_groups 3 rowsC4).length = 3
      ∧ (∀ pr ∈ annotate_mod_pk 3 rowsC4, pr.2 = pr.1.pk % 3 ∧ pr.2 < 3)
      ∧ (∀ r ∈ rowsC4, (List.range 3).count (r.pk % 3) = 1)
      ∧ ∀ g ∈ List.range 3, ∀ pr,
          (pr ∈ (annotate_mod_pk 3 rowsC4).filter (fun pr => decide (pr.2 = g)) ↔
            pr ∈ annotate_mod_pk 3 rowsC4 ∧ pr.2 = g)) :=
  ⟨by decide, mod_pk_partition 3 rowsC4 (by decide)⟩

/-- C3: for every field of every model, the effective rule table resolves
by precedence: a model-declared rule overrides a global field-name rule,
which overrides a global type rule; fields absent from every source get no
rule. -/
theorem rule_precedence (st : Settings) (m : Model) (f : Field)
    (hf : f ∈ m.fields) (hn : (m.fields.map Field.name).Nodup) :
    lookupD (effective_scrubbers st m) f =
      match lookupD (get_model_scrubbers st m) f with
      | some r => some r
      | none =>
        match st.globalScrubbers.byName f.name with
        | some r => some r
        | none => st.globalScrubbers.byType f.ftype := by
  rw [lookupD_effective, lookupD_build_global st.globalScrubbers m.fields f hf hn]
  cases lookupD (get_model_scrubbers st m) f with
  | some r => rfl
  | none =>
    unfold global_rule_entry
    cases hb : st.globalScrubbers.byName f.name with
    | some r => rfl
    | none =>
      cases ht : st.globalScrubbers.byType f.ftype with
      | some r => rfl
      | none => rfl

/-- Witness for C3: a field with a rule in all three sources resolves to
the model-declared one. -/
theorem rule_precedence_witness :
    fC3 ∈ mC3.fields
    ∧ (mC3.fields.map Field.name).Nodup
    ∧ lookupD (effective_scrubbers stC3 mC3) fC3 =
        (match lookupD (get_model_scrubbers stC3 mC3) fC3 with
          | some r => some r
          | none =>
            match stC3.globalScrubbers.byName fC3.name with
            | some r => some r
            | none => stC3.globalScrubbers.byType fC3.ftype)
    ∧ lookupD (effective_scrubbers stC3 mC3) fC3 = some (Rule.lit (PyVal.vStr "model")) :=
  ⟨List.mem_cons_self fC3 [], by decide,
    rule_precedence stC3 mC3 fC3 (List.mem_cons_self fC3 []) (by decide), rfl⟩

/-- C2 counterexample: the claim states that an invocable rule realizes to
the result of its invocation and that a falsy realized value is discarded.
For the concrete field email with a callable rule returning None, the claim
predicts the entry realizes to None and is discarded; the code instead
realizes the entry to the callable object itself (the Python and-or chain)
and keeps it, so the field stays in the realized mapping. -/
theorem realize_contract_counterexample :
    (realized_scrubbers dC2).map Prod.fst = ["email"]
    ∧ lookupD (call_callables dC2) "email" ≠ some (RVal.val PyVal.vNone) := by
  refine ⟨rfl, fun h => ?_⟩
  have h2 : RVal.fnVal (fun _ => PyVal.vNone) = RVal.val PyVal.vNone := Option.some.inj h
  exact RVal.noConfusion h2

/-- C2 (amended): for every (field, rule) pair of a rule table with unique
field names, the realized mapping holds, under the field name: for an
invocable rule whose invocation result is truthy, that result; for an
invocable rule whose invocation result is falsy, the rule object itself
(truthy, hence retained); for a non-invocable rule, the rule as a literal,
discarded exactly when falsy (the per-model disable mechanism). -/
theorem realize_and_discard_contract (d : List (Field × Rule)) (f : Field) (r : Rule)
    (hmem : (f, r) ∈ d) (hn : (d.map (fun p => p.1.name)).Nodup) :
    lookupD (realized_scrubbers d) f.name =
      match r with
      | .keep => some RVal.keepInst
      | .lit v => if pyTruthy v then some (RVal.val v) else none
      | .gen gfn =>
        if pyTruthy (gfn f) then some (RVal.val (gfn f)) else some (RVal.fnVal gfn) := by
  have hX : lookupD (call_callables d) f.name = some (realize_rule f r) :=
    lookupD_call_callables d f r hmem hn
  have hXn : ((call_callables d).map Prod.fst).Nodup := by
    unfold call_callables; exact nodup_keys_extend_nil _ _
  have hXm : (f.name, realize_rule f r) ∈ call_callables d := mem_of_lookupD_some hX
  have hfilter := lookupD_filter_out_disabled (call_callables d) f.name (realize_rule f r) hXm hXn
  unfold realized_scrubbers
  rw [hfilter]
  cases r with
  | keep => rfl
  | lit v => cases ht : pyTruthy v <;> simp [realize_rule, rvalTruthy, ht]
  | gen gfn => cases ht : pyTruthy (gfn f) <;> simp [realize_rule, rvalTruthy, ht]

/-- Witness for C2 (amended) at a truthy literal rule. -/
theorem realize_and_discard_contract_witness :
    (fC2, Rule.lit (PyVal.vStr "x@example.com")) ∈ dC2w
    ∧ (dC2w.map (fun p => p.1.name)).Nodup
    ∧ lookupD (realized_scrubbers dC2w) fC2.name =
        (match Rule.lit (PyVal.vStr "x@example.com") with
          | .keep => some RVal.keepInst
          | .lit v => if pyTruthy v then some (RVal.val v) else none
          | .gen gfn =>
            if pyTruthy (gfn fC2) then some (RVal.val (gfn fC2)) else some (RVal.fnVal gfn)) :=
  ⟨List.mem_cons_self _ [], by decide,
    realize_and_discard_contract dC2w fC2 (Rule.lit (PyVal.vStr "x@example.com"))
      (List.mem_cons_self _ []) (by decide)⟩

/-- C1: for every model and every rule source, a field whose rule in the
effective (post-precedence) rule table is the Keep sentinel never appears
in the realized rule set passed to the bulk update. -/
theorem keep_fields_never_realized (st : Settings) (m : Model) (f : Field)
    (hn : (m.fields.map Field.name).Nodup)
    (hkeep : lookupD (effective_scrubbers st m) f = some Rule.keep) :
    f.name ∉ (realized_scrubbers (scrubbers_without_kept_fields
      (effective_scrubbers st m))).map Prod.fst := by
  intro hmemk
  rcases List.mem_map.mp hmemk with ⟨q, hq, hqk⟩
  have hqX : q ∈ call_callables (scrubbers_without_kept_fields (effective_scrubbers st m)) := by
    unfold realized_scrubbers filter_out_disabled at hq
    rcases mem_pyDictExtend_sub _ _ _ _ hq with h | ⟨a, ha, hv⟩
    · cases h
    · have hv' : (if rvalTruthy a.2 then some a else none) = some q := hv
      cases ht : rvalTruthy a.2 with
      | false => rw [ht] at hv'; exact Option.noConfusion hv'
      | true =>
        rw [ht] at hv'
        have : a = q := Option.some.inj hv'
        rw [← this]
        exact ha
  have hker : ∃ p ∈ scrubbers_without_kept_fields (effective_scrubbers st m),
      p.1.name = f.name := by
    unfold call_callables at hqX
    rcases mem_pyDictExtend_sub _ _ _ _ hqX with h | ⟨p, hp, hv⟩
    · cases h
    · have hv' : some ((p.1.name, realize_rule p.1 p.2) : String × RVal) = some q := hv
      have he : (p.1.name, realize_rule p.1 p.2) = q := Option.some.inj hv'
      refine ⟨p, hp, ?_⟩
      have h1 : p.1.name = q.1 := by rw [← he]
      exact h1.trans hqk
  rcases hker with ⟨p, hpNoKeep, hpname⟩
  have hpe : p ∈ effective_scrubbers st m ∧ isKeep p.2 = false := by
    unfold scrubbers_without_kept_fields at hpNoKeep
    rcases mem_pyDictExtend_sub _ _ _ _ hpNoKeep with h | ⟨e, he, hv⟩
    · cases h
    · have hv' : (if isKeep e.2 then none else some e) = some p := hv
      cases hk : isKeep e.2 with
      | true => rw [hk] at hv'; exact Option.noConfusion hv'
      | false =>
        rw [hk] at hv'
        have hep : e = p := Option.some.inj hv'
        rw [← hep]
        exact ⟨he, hk⟩
  obtain ⟨hpEff, hpNotKeep⟩ := hpe
  have hfEff : ((f, Rule.keep) : Field × Rule) ∈ effective_scrubbers st m :=
    mem_of_lookupD_some hkeep
  have hpf : p.1 ∈ m.fields := mem_fields_of_mem_effective st m p hpEff
  have hff : f ∈ m.fields := mem_fields_of_mem_effective st m (f, Rule.keep) hfEff
  have hpeq : p.1 = f := List.inj_on_of_nodup_map hn hpf hff hpname
  have hmem' : ((p.1, p.2) : Field × Rule) ∈ effective_scrubbers st m := by
    rw [Prod.mk.eta]; exact hpEff
  have hlk : lookupD (effective_scrubbers st m) p.1 = some p.2 :=
    lookupD_of_mem_nodup hmem' (nodup_keys_effective st m)
  rw [hpeq] at hlk
  have h2 : p.2 = Rule.keep := Option.some.inj (hlk.symm.trans hkeep)
  rw [h2] at hpNotKeep
  exact Bool.noConfusion hpNotKeep

/-- Witness for C1: a field whose global rule is overridden to Keep by the
model never shows up in the realized mapping. -/
theorem keep_fields_never_realized_witness :
    (mC1.fields.map Field.name).Nodup
    ∧ lookupD (effective_scrubbers stC1 mC1) fC1 = some Rule.keep
    ∧ fC1.name ∉ (realized_scrubbers (scrubbers_without_kept_fields
        (effective_scrubbers stC1 mC1))).map Prod.fst :=
  ⟨by decide, rfl, keep_fields_never_realized stC1 mC1 fC1 (by decide) rfl⟩

theorem paginate_flatten_aux {α : Type} (per : Nat) (hper : 0 < per) :
    ∀ (n : Nat) (l : List α), l.length ≤ n → (paginate per l).flatten = l := by
  intro n
  induction n with
  | zero =>
    intro l hl
    have h0 : l = [] := List.eq_nil_of_length_eq_zero (Nat.le_zero.mp hl)
    subst h0
    simp [paginate]
  | succ n ih =>
    intro l hl
    cases l with
    | nil => simp [paginate]
    | cons x xs =>
      obtain ⟨k, hk⟩ : ∃ k, per = k + 1 := ⟨per - 1, (Nat.succ_pred_eq_of_pos hper).symm⟩
      subst hk
      have hdl : (xs.drop k).length ≤ n := by
        rw [List.length_drop]
        simp only [List.length_cons] at hl
        omega
      have h1 := ih (xs.drop k) hdl
      simp only [paginate, Nat.add_sub_cancel]
      rw [List.flatten_cons, h1, List.take_succ_cons, List.cons_append, List.take_append_drop]

theorem paginate_flatten {α : Type} (per : Nat) (hper : 0 < per) (l : List α) :
    (paginate per l).flatten = l :=
  paginate_flatten_aux per hper l.length l (Nat.le_refl _)

theorem paginate_pages_le {α : Type} (per : Nat) :
    ∀ (n : Nat) (l : List α), l.length ≤ n → ∀ page ∈ paginate per l, page.length ≤ per := by
  intro n
  induction n with
  | zero =>
    intro l hl page hp
    have h0 : l = [] := List.eq_nil_of_length_eq_zero (Nat.le_zero.mp hl)
    subst h0
    simp [paginate] at hp
  | succ n ih =>
    intro l hl page hp
    cases l with
    | nil => simp [paginate] at hp
    | cons x xs =>
      simp only [paginate] at hp
      rcases List.mem_cons.mp hp with h | h
      · rw [h]
        exact List.length_take_le per (x :: xs)
      · refine ih (xs.drop (per - 1)) ?_ page h
        rw [List.length_drop]
        simp only [List.length_cons] at hl
        omega

/-- C6: the bulk trim routine pages the candidate set into pages of at most
250 rows covering it exactly; the trace of submitted deletions is the
dependent deletions of every row with orders across all pages, followed by
the row deletions of all pages, followed by the one final sweep delete. -/
theorem large_delete_passes (qs : List Row) :
    large_delete qs =
      (qs.filterMap (fun r => if r.hasOrders then some (TrimOp.delOrders r.pk) else none))
      ++ (qs.map (fun r => TrimOp.delRow r.pk))
      ++ [TrimOp.sweep]
    ∧ (∀ page ∈ paginate 250 qs, page.length ≤ 250)
    ∧ (paginate 250 qs).flatten = qs := by
  have hflat : (paginate 250 qs).flatten = qs := paginate_flatten 250 (by decide) qs
  refine ⟨?_, fun page hp => paginate_pages_le 250 qs.length qs (Nat.le_refl _) page hp, hflat⟩
  unfold large_delete
  simp only [← List.filterMap_flatten, ← List.map_flatten, hflat]

/-- C5 (code bug exhibit): on a queryset whose delete raises ProtectedError
without the allow_hard_delete annotation and succeeds with it, force_delete
evaluates the annotate call, retries exactly once, catches the retry
failure and only logs a warning - the row survives - although the same
delete on the annotated queryset would have removed it, because the source
discards the queryset returned by annotate. -/
theorem force_delete_flag_discarded :
    force_delete qsC5 =
      { deleteCalls := 2, annotateCalled := true,
        outcome := FDOutcome.warned "ProtectedError" }
    ∧ qsC5.del true 1 = DRes.ok
    ∧ force_delete (annotate_allow_hard_delete qsC5) =
      { deleteCalls := 1, annotateCalled := false, outcome := FDOutcome.deleted } :=
  ⟨rfl, rfl, rfl⟩

/-- C7: with an unrecognized environment the command writes to stderr and
returns without raising or mutating anything; with strict mode on and a
nonempty validator report it likewise aborts before mutating anything. -/
theorem gates_abort_before_mutation (w : World) (kw : CmdKwargs) :
    ((["STAGING", "DEVELOP", "NONPROD"].contains w.settings.environment) = false →
      handle w kw = { effects := [], exit := ExitStatus.envGateFail })
    ∧ ((["STAGING", "DEVELOP", "NONPROD"].contains w.settings.environment) = true →
        w.settings.strictMode = true → 0 < w.nonScrubbedFields.length →
      handle w kw = { effects := [], exit := ExitStatus.strictModeFail }) := by
  constructor
  · intro h
    unfold handle
    rw [h]
    rfl
  · intro he hs hl
    have hd : decide (0 < w.nonScrubbedFields.length) = true := decide_eq_true hl
    unfold handle
    rw [he, hs, hd]
    rfl

/-- Witness for C7: a production environment is gated; strict mode with one
reported field aborts. -/
theorem gates_abort_before_mutation_witness :
    ((["STAGING", "DEVELOP", "NONPROD"].contains wC7a.settings.environment) = false
      ∧ handle wC7a kwC7 = { effects := [], exit := ExitStatus.envGateFail })
    ∧ ((["STAGING", "DEVELOP", "NONPROD"].contains wC7b.settings.environment) = true
      ∧ wC7b.settings.strictMode = true ∧ 0 < wC7b.nonScrubbedFields.length
      ∧ handle wC7b kwC7 = { effects := [], exit := ExitStatus.strictModeFail }) :=
  ⟨⟨rfl, (gates_abort_before_mutation wC7a kwC7).1 rfl⟩,
   ⟨rfl, rfl, by decide, (gates_abort_before_mutation wC7b kwC7).2 rfl rfl (by decide)⟩⟩

/-- C8 (code bug exhibit): a --model value with no dot escapes as an
uncaught ValueError from the tuple unpacking of rsplit, instead of the
diagnostic CommandError the claim promises; an unknown dotted model does
abort with the diagnostic CommandError. -/
theorem model_arg_config_errors :
    handle wC8 kwC8a = { effects := [], exit := ExitStatus.uncaught "ValueError" }
    ∧ handle wC8 kwC8b =
      { effects := [],
        exit := ExitStatus.commandError
          "--model should be defined as <app_label>.<model_name>" } :=
  ⟨rfl, rfl⟩

/-- C10: a model explicitly selected via --model still passes through the
proxy, skip-unmanaged and apps-list filters; when one of them matches, the
model is silently skipped - the run completes with no effect for it and no
error. -/
theorem selected_model_still_filtered (w : World) (kw : CmdKwargs) (s : String) (m : Model)
    (hEnv : (["STAGING", "DEVELOP", "NONPROD"].contains w.settings.environment) = true)
    (hStrict : (w.settings.strictMode && decide (0 < w.nonScrubbedFields.length)) = false)
    (hArg : kw.model = some s)
    (hRes : resolve_models w.registry (some s) = ResolveOutcome.found [m])
    (hSkip : m.proxy = true
      ∨ (w.settings.skipUnmanaged = true ∧ m.managed = false)
      ∨ (w.settings.appsList.isEmpty = false
          ∧ w.settings.appsList.contains m.appName = false)) :
    handle w kw =
      { effects := (if !kw.keepSessions then [Effect.truncateSessions] else [])
          ++ (if kw.removeFakeData then [Effect.truncateFakeData] else []),
        exit := ExitStatus.completed } := by
  have hme : scrub_model_effects w.settings w.now kw.olderThan m = [] := by
    unfold scrub_model_effects
    rcases hSkip with h | ⟨h1, h2⟩ | ⟨h1, h2⟩
    · rw [h]; rfl
    · cases hp : m.proxy with
      | true => rfl
      | false => rw [h1, h2]; rfl
    · cases hp : m.proxy with
      | true => rfl
      | false =>
        cases hu : (w.settings.skipUnmanaged && !m.managed) with
        | true => rfl
        | false => rw [h1, h2]; rfl
  unfold handle
  rw [hEnv, hStrict, hArg, hRes]
  simp [hme]

/-- Witness for C10: an explicitly selected proxy model is silently
skipped. -/
theorem selected_model_still_filtered_witness :
    (["STAGING", "DEVELOP", "NONPROD"].contains wC10.settings.environment) = true
    ∧ (wC10.settings.strictMode && decide (0 < wC10.nonScrubbedFields.length)) = false
    ∧ kwC10.model = some "app.Ghost"
    ∧ resolve_models wC10.registry (some "app.Ghost") = ResolveOutcome.found [mC10]
    ∧ mC10.proxy = true
    ∧ handle wC10 kwC10 =
      { effects := (if !kwC10.keepSessions then [Effect.truncateSessions] else [])
          ++ (if kwC10.removeFakeData then [Effect.truncateFakeData] else []),
        exit := ExitStatus.completed } :=
  ⟨rfl, rfl, rfl, rfl, rfl,
   selected_model_still_filtered wC10 kwC10 "app.Ghost" mC10 rfl rfl rfl rfl (Or.inl rfl)⟩

end Scrubber
